import Mathlib

/-!
Verification of the AVX512 intgemm backend (src/avx512_gemm.h) against its
natural-language specification.  Machine integers are modelled as `Int` with
explicit wrapping (`% 2^w`) where hardware overflow matters; SIMD registers
are lists of lanes.  Definitions come first, then the theorems.
-/

namespace Intgemm

/-! ### 8-bit and 16-bit lane arithmetic

Faithful models of the AVX512 lane operations that `AVX512_8bit::Multiply`
and the quantizers use. -/

/-- Reinterpret an integer as a signed 8-bit lane (two's complement wrap). -/
def wrap8 (x : ℤ) : ℤ := (x + 128) % 256 - 128

/-- Reinterpret an integer as a signed 32-bit lane (two's complement wrap). -/
def wrap32 (x : ℤ) : ℤ := (x + 2 ^ 31) % 2 ^ 32 - 2 ^ 31

/-- Saturate to a signed 8-bit lane, as the `_mm512_packs_epi16` narrowing
and the `_mm512_mask_cvtsepi32_storeu_epi8` store do. -/
def sat8 (x : ℤ) : ℤ := max (-128) (min 127 x)

/-- Saturate to a signed 16-bit lane (`_mm512_packs_epi32`,
`_mm512_maddubs_epi16`, `_mm512_adds_epi16`). -/
def sat16 (x : ℤ) : ℤ := max (-32768) (min 32767 x)

/-- Saturating 16-bit lane addition, `_mm512_adds_epi16`. -/
def satAdd16 (x y : ℤ) : ℤ := sat16 (x + y)

/-- Model of `_mm512_test_epi8_mask(a, _mm512_set1_epi8(-128))` on one lane: tests the
sign bit of the byte, i.e. whether the lane is negative as a signed byte. -/
def testSign8 (a : ℤ) : Bool := wrap8 a < 0

/-- The unsigned reading of `_mm512_abs_epi8` on one lane: `maddubs` treats
this operand as unsigned, and the unsigned value of `abs_epi8 a` is `|a|`
for every signed byte `a`, including `-128` (whose byte `0x80` reads as
128 unsigned). -/
def absU8 (a : ℤ) : ℤ := |wrap8 a|

/-- Model of `_mm512_mask_sub_epi8(b, mask, zeros, b)` on one lane: when the mask bit
is set the lane becomes `0 - b` with 8-bit wraparound, otherwise it is kept. -/
def maskSub8 (m : Bool) (b : ℤ) : ℤ := if m then wrap8 (0 - b) else b

/-- Adjacent pairs summed with 16-bit saturation: the horizontal step of
`_mm512_maddubs_epi16` applied to a list of lane products. -/
def pairSumsSat : List ℤ → List ℤ
  | x :: y :: rest => sat16 (x + y) :: pairSumsSat rest
  | _ => []

/-- Adjacent pairs summed exactly (no saturation); the mathematical
reference for `pairSumsSat`. -/
def pairSums : List ℤ → List ℤ
  | x :: y :: rest => (x + y) :: pairSums rest
  | _ => []

/-- Model of `_mm512_maddubs_epi16 apos b`: lane-wise unsigned-by-signed products of
`apos` and `b`, adjacent pairs added into saturated 16-bit sums. -/
def maddubs (apos b : List ℤ) : List ℤ := pairSumsSat (List.zipWith (· * ·) apos b)

/-- One register-width multiply-accumulate step of the 8-bit `Multiply`
(src/avx512_gemm.h lines 245-256 and 266-299): take the per-lane absolute
value of the A chunk, record the mask of negative A lanes, conditionally
negate exactly those lanes of the B register, then do the unsigned-by-signed
paired multiply-add. -/
def mulStep (a b : List ℤ) : List ℤ :=
  maddubs (a.map absU8) (List.zipWith (fun ai bi => maskSub8 (testSign8 ai) bi) a b)

/-- Spec-side reference for C1: a direct signed-by-signed paired
multiply-add of the same lanes, with exact 16-bit pair sums. -/
def directMadd (a b : List ℤ) : List ℤ := pairSums (List.zipWith (· * ·) a b)

/-! ### The 8-bit Multiply kernel (`AVX512_8bit::Multiply`, lines 220-330) -/

/-- A contiguous slice of a buffer: `len` lanes starting at index `start`. -/
def slice (l : List ℤ) (start len : ℕ) : List ℤ := (l.drop start).take len

/-- An all-zero 512-bit register of 64 byte lanes (`setzero_si`). -/
def zeroReg : List ℤ := List.replicate 64 0

/-- The `k`-th 64-lane chunk of row `r` of the quantized A
(`A + A_rowidx * width`, advanced `k` registers). -/
def aChunk (A : List ℤ) (width r k : ℕ) : List ℤ := slice A (r * width + 64 * k) 64

/-- Register number `8 * simdw * s + 8 * k + j` of packed B: column strip `s`
(`B0_col += 8 * simd_width` per strip), shared-dimension step `k`
(`B_live += 8` per chunk), column-of-strip `j`. -/
def bReg (B : List (List ℤ)) (simdw s k j : ℕ) : List ℤ :=
  B.getD (8 * simdw * s + 8 * k + j) zeroReg

/-- The 16-bit accumulator register `sum<j>` after the inner loop over the
shared dimension, for row `r` and strip `s`: the first chunk initializes the
sums, every later chunk is combined with saturating 16-bit adds
(lines 244-312).  `width / 64` is `simd_width`; a zero `width` performs no
iteration (the source would read out of bounds there; the asserted
preconditions exclude it). -/
def stripSumJ (A : List ℤ) (B : List (List ℤ)) (width r s j : ℕ) : List ℤ :=
  match List.range (width / 64) with
  | [] => List.replicate 32 0
  | k0 :: ks =>
    ks.foldl
      (fun acc k => List.zipWith satAdd16 acc
        (mulStep (aChunk A width r k) (bReg B (width / 64) s k j)))
      (mulStep (aChunk A width r k0) (bReg B (width / 64) s k0 j))

/-- Model of `madd_epi16(sum, set1_epi16(1))`: adjacent 16-bit lanes are each
multiplied by one and added into a 32-bit lane (wrapping). -/
def madd16Ones : List ℤ → List ℤ
  | x :: y :: rest => wrap32 (x * 1 + y * 1) :: madd16Ones rest
  | _ => []

/-- Modelled from the spec: `Pack0123` and `PermuteSummer` (defined in
multiply.h and interleave.h, which are not under src/) perform the final
horizontal reduction that lays out per-column totals contiguously; each sum
register is reduced to one 32-bit total with wrapping 32-bit adds. -/
def horizontalSum32 (l : List ℤ) : ℤ := wrap32 l.sum

/-- The eight 32-bit column totals handed to the callback for row `r` and
column strip `s` (lines 313-327). -/
def stripTotals (A : List ℤ) (B : List (List ℤ)) (width r s : ℕ) : List ℤ :=
  (List.range 8).map (fun j => horizontalSum32 (madd16Ones (stripSumJ A B width r s j)))

/-- Model of `AVX512_8bit::Multiply`: outer loop over strips of 8 columns of B in
ascending order, inner loop over rows of A in ascending order; each callback
invocation is recorded as `(A_rowidx, B0_colidx, totals)`.  The source loop
`B0_colidx != B_cols; B0_colidx += 8` performs `B_cols / 8` strips (and
terminates exactly because of the asserted precondition `B_cols % 8 == 0`). -/
def Multiply (A : List ℤ) (B : List (List ℤ)) (Arows width Bcols : ℕ) :
    List (ℕ × ℕ × List ℤ) :=
  (List.range (Bcols / 8)).flatMap (fun s =>
    (List.range Arows).map (fun r => (r, 8 * s, stripTotals A B width r s)))

/-- The sequence of `(row, column strip)` callback positions of one
`Multiply` invocation. -/
def callbackPositions (A : List ℤ) (B : List (List ℤ)) (Arows width Bcols : ℕ) :
    List (ℕ × ℕ) :=
  (Multiply A B Arows width Bcols).map (fun t => (t.1, t.2.1))

/-! ### Quantizers (`AVX512_16bit::Quantize`, `AVX512_8bit::Quantize`,
`avx512f::QuantizerGrab`, `avx512f::QuantizeTile8::ForReshape`) -/

/-- Model of `_mm512_cvtps_epi32` on one value: round to nearest; a value that does
not fit in int32 produces the Intel sentinel `-2^31`. -/
def cvtI32 (q : ℚ) : ℤ :=
  if -(2 ^ 31) ≤ round q ∧ round q ≤ 2 ^ 31 - 1 then round q else -(2 ^ 31)

/-- Modelled from the spec: `kernels::quantize` (kernels.h, not under src/)
multiplies the loaded floats by the quantization multiplier and rounds to
nearest with the hardware conversion; composed with the load this is
`avx512f::QuantizerGrab` (lines 38-40). -/
def quantizerGrab (x m : ℚ) : ℤ := cvtI32 (x * m)

/-- One element of `AVX512_8bit::Quantize` (lines 189-201): grab, clamp to
at least -127 (`_mm512_max_epi32` with `neg127`), then saturating narrow to
int8 (`_mm512_mask_cvtsepi32_storeu_epi8`). -/
def quantize8Elem (x m : ℚ) : ℤ := sat8 (max (quantizerGrab x m) (-127))

/-- Model of `AVX512_8bit::Quantize` over a whole buffer. -/
def Quantize8 (input : List ℚ) (m : ℚ) : List ℤ := input.map (fun x => quantize8Elem x m)

/-- Dequantization as the spec describes it: divide the quantized integer by
the multiplier. -/
def dequantize8 (q : ℤ) (m : ℚ) : ℚ := (q : ℚ) / m

/-- The byte order produced by the two saturating packs and the final
`_mm512_permutexvar_epi32` of `QuantizeTile8::ForReshape`, as documented on
line 111 of the source: output byte `t` holds the clamped value of input
element `reshapeOrder[t]`. -/
def reshapeOrder : List ℕ :=
  [0, 1, 2, 3, 16, 17, 18, 19, 32, 33, 34, 35, 48, 49, 50, 51,
   4, 5, 6, 7, 20, 21, 22, 23, 36, 37, 38, 39, 52, 53, 54, 55,
   8, 9, 10, 11, 24, 25, 26, 27, 40, 41, 42, 43, 56, 57, 58, 59,
   12, 13, 14, 15, 28, 29, 30, 31, 44, 45, 46, 47, 60, 61, 62, 63]

/-- The value pipeline of one element of `QuantizeTile8::ForReshape`
(lines 93-113): pack 32-bit to 16-bit with saturation
(`_mm512_packs_epi32`), pack 16-bit to 8-bit with saturation
(`_mm512_packs_epi16`), then ban -128 (`_mm512_max_epi8` with `neg127`). -/
def forReshapeElem (g : ℤ) : ℤ := max (sat8 (sat16 g)) (-127)

/-- Model of `QuantizeTile8::ForReshape` acting on the 64 int32 values grabbed from
one tile: the element-wise clamp pipeline, bytes rearranged in the
documented order. -/
def forReshape (g : List ℤ) : List ℤ :=
  reshapeOrder.map (fun i => forReshapeElem (g.getD i 0))

/-! ### Packed B and column selection (spec-modelled) -/

/-- Modelled from the spec: the grouping of requested column indices into
groups of 8, the selection granularity of `SelectColumnsB` (selection
happens in 8-column groups matching the tile width). -/
def chunk8 : List ℕ → List (List ℕ)
  | a :: b :: c :: d :: e :: f :: g :: h :: rest =>
    [a, b, c, d, e, f, g, h] :: chunk8 rest
  | _ => []

/-- Modelled from the spec: one 64-lane register of the packed B layout.
`PrepareB` (via `INTGEMM_PREPARE_B_8`, defined in interleave.h, which is not
under src/) quantizes 64-row by 8-column tiles while packing; the packed
buffer stores, per column strip, `rows / 64` row blocks of 8 interleaved
registers, where register `k` of block `r` of strip `s` holds rows
`64r .. 64r+63` of column `8s+k`, each element quantized like the 8-bit
Quantize.  The flat register index `n` decodes as strip
`n / ((rows/64) * 8)`, row block `n / 8 % (rows/64)` and column-in-strip
`n % 8`. -/
def packedRegister (Bf : ℕ → ℕ → ℚ) (m : ℚ) (rows n : ℕ) : List ℤ :=
  (List.range 64).map (fun i =>
    quantize8Elem (Bf (64 * (n / 8 % (rows / 64)) + i)
      (8 * (n / ((rows / 64) * 8)) + n % 8)) m)

/-- Modelled from the spec: `PrepareB` produces `(cols/8) * (rows/64) * 8`
packed registers in strip-major, then row-block, then column-in-strip
order. -/
def prepareB (Bf : ℕ → ℕ → ℚ) (m : ℚ) (rows cols : ℕ) : List (List ℤ) :=
  (List.range ((cols / 8) * ((rows / 64) * 8))).map (packedRegister Bf m rows)

/-- Modelled from the spec: `SelectColumnsB` (via `INTGEMM_SELECT_COL_B`,
defined in multiply.h, which is not under src/) operates purely on the
packed representation: for each group of 8 requested column indices it
copies, for every row block in order, the packed register of each selected
column verbatim — the register of column `c` at row block `r` sits at flat
index `(c / 8) * ((rows/64) * 8) + r * 8 + c % 8` of the input. -/
def selectColumnsB (packed : List (List ℤ)) (rows : ℕ) (idxs : List ℕ) :
    List (List ℤ) :=
  (chunk8 idxs).flatMap (fun grp =>
    (List.range (rows / 64)).flatMap (fun r =>
      grp.map (fun c =>
        packed.getD ((c / 8) * ((rows / 64) * 8) + r * 8 + c % 8) [])))

/-! ### Assertion preconditions -/

/-- The assertions of `AVX512_16bit::Quantize` (lines 140-141):
`size % 16 == 0` and the float input 64-byte aligned. -/
def quantize16Pre (addr size : ℕ) : Bool := size % 16 == 0 && addr % 64 == 0

/-- The assertions of `AVX512_8bit::Quantize` (lines 190-191):
`size % 16 == 0` and the float input 64-byte aligned. -/
def quantize8Pre (addr size : ℕ) : Bool := size % 16 == 0 && addr % 64 == 0

/-- The assertions of `AVX512_8bit::Multiply` (lines 225-228):
`width % sizeof(__m512i) == 0` with `sizeof(__m512i) == 64`,
`B_cols % 8 == 0`, and both operand buffers 64-byte aligned. -/
def multiplyPre (Aaddr Baddr width Bcols : ℕ) : Bool :=
  width % 64 == 0 && Bcols % 8 == 0 && Aaddr % 64 == 0 && Baddr % 64 == 0

/-- Version of `Multiply` guarded by its assertions: `none` models an assertion
failure, `some` a run to completion. -/
def MultiplyChecked (Aaddr Baddr : ℕ) (A : List ℤ) (B : List (List ℤ))
    (Arows width Bcols : ℕ) : Option (List (ℕ × ℕ × List ℤ)) :=
  if multiplyPre Aaddr Baddr width Bcols then some (Multiply A B Arows width Bcols) else none

/-! ### Theorems: lane lemmas -/

theorem wrap8_eq_self {x : ℤ} (h1 : -128 ≤ x) (h2 : x ≤ 127) : wrap8 x = x := by
  unfold wrap8; omega

theorem wrap32_eq_self {x : ℤ} (h1 : -(2 ^ 31) ≤ x) (h2 : x < 2 ^ 31) : wrap32 x = x := by
  unfold wrap32; omega

theorem sat16_eq_self {x : ℤ} (h1 : -32768 ≤ x) (h2 : x ≤ 32767) : sat16 x = x := by
  unfold sat16; omega

theorem sat8_eq_self {x : ℤ} (h1 : -128 ≤ x) (h2 : x ≤ 127) : sat8 x = x := by
  unfold sat8; omega

/-- The sign-trick on one lane: for bytes that avoid `-128`, the unsigned
absolute value of `a` times the conditionally negated `b` is exactly `a*b`. -/
theorem lane_exact {a b : ℤ} (ha1 : -127 ≤ a) (ha2 : a ≤ 127)
    (hb1 : -127 ≤ b) (hb2 : b ≤ 127) :
    absU8 a * maskSub8 (testSign8 a) b = a * b := by
  have hwa : wrap8 a = a := wrap8_eq_self (by omega) ha2
  rcases le_or_lt 0 a with hpos | hneg
  · have hmask : testSign8 a = false := by
      simp [testSign8, hwa]; omega
    simp [absU8, maskSub8, hmask, hwa, abs_of_nonneg hpos]
  · have hmask : testSign8 a = true := by
      simp [testSign8, hwa]; omega
    have hwb : wrap8 (-b) = -b := wrap8_eq_self (by omega) (by omega)
    simp only [absU8, maskSub8, hmask, if_true, hwa, abs_of_neg hneg, zero_sub, hwb]
    ring

theorem pairSumsSat_eq_pairSums : ∀ (l : List ℤ),
    (∀ x ∈ l, -16129 ≤ x ∧ x ≤ 16129) → pairSumsSat l = pairSums l
  | [], _ => rfl
  | [_], _ => rfl
  | x :: y :: rest, h => by
    have hx := h x (by simp)
    have hy := h y (by simp)
    have hrest : ∀ z ∈ rest, -16129 ≤ z ∧ z ≤ 16129 := fun z hz => h z (by simp [hz])
    have hs : sat16 (x + y) = x + y := sat16_eq_self (by omega) (by omega)
    simp only [pairSumsSat, pairSums, pairSumsSat_eq_pairSums rest hrest, hs]

/-- Membership in a zipWith comes from members of the two lists. -/
theorem mem_zipWith {α β γ : Type} {f : α → β → γ} :
    ∀ {l1 : List α} {l2 : List β} {v : γ}, v ∈ List.zipWith f l1 l2 →
      ∃ x ∈ l1, ∃ y ∈ l2, v = f x y
  | [], _, _, h => by simp at h
  | _ :: _, [], _, h => by simp at h
  | x :: xs, y :: ys, v, h => by
    simp only [List.zipWith_cons_cons, List.mem_cons] at h
    rcases h with rfl | h
    · exact ⟨x, by simp, y, by simp, rfl⟩
    · obtain ⟨x', hx', y', hy', rfl⟩ := mem_zipWith h
      exact ⟨x', by simp [hx'], y', by simp [hy'], rfl⟩

/-- Membership in `pairSumsSat` comes from two members of the list. -/
theorem mem_pairSumsSat : ∀ {l : List ℤ} {v : ℤ}, v ∈ pairSumsSat l →
    ∃ x ∈ l, ∃ y ∈ l, v = sat16 (x + y)
  | [], v, h => by simp [pairSumsSat] at h
  | [x], v, h => by simp [pairSumsSat] at h
  | x :: y :: rest, v, h => by
    simp only [pairSumsSat, List.mem_cons] at h
    rcases h with rfl | h
    · exact ⟨x, by simp, y, by simp, rfl⟩
    · obtain ⟨a, ha, b, hb, rfl⟩ := mem_pairSumsSat h
      exact ⟨a, by simp [ha], b, by simp [hb], rfl⟩

theorem zipWith_mul_bound {a b : List ℤ}
    (ha : ∀ x ∈ a, -127 ≤ x ∧ x ≤ 127) (hb : ∀ x ∈ b, -127 ≤ x ∧ x ≤ 127) :
    ∀ v ∈ List.zipWith (· * ·) a b, -16129 ≤ v ∧ v ≤ 16129 := by
  intro v hv
  obtain ⟨x, hx, y, hy, rfl⟩ := mem_zipWith hv
  have h1 := ha x hx
  have h2 := hb y hy
  constructor
  · nlinarith [h1.1, h1.2, h2.1, h2.2]
  · nlinarith [h1.1, h1.2, h2.1, h2.2]

/-- The lane-wise fused form of `mulStep`'s two zipWiths. -/
theorem mulStep_zip (a b : List ℤ) :
    mulStep a b
      = pairSumsSat (List.zipWith (fun ai bi => absU8 ai * maskSub8 (testSign8 ai) bi) a b) := by
  unfold mulStep maddubs
  congr 1
  induction a generalizing b with
  | nil => simp
  | cons x xs ih =>
    cases b with
    | nil => simp
    | cons y ys => simp [ih]

/-! ### Theorems: C1 -/

/-- The multiply-accumulate step equals the exact signed paired
multiply-add whenever all lanes avoid -128. -/
theorem mulStep_exact (a b : List ℤ)
    (ha : ∀ x ∈ a, -127 ≤ x ∧ x ≤ 127) (hb : ∀ x ∈ b, -127 ≤ x ∧ x ≤ 127) :
    mulStep a b = pairSums (List.zipWith (· * ·) a b) := by
  rw [mulStep_zip]
  have hzip : List.zipWith (fun ai bi => absU8 ai * maskSub8 (testSign8 ai) bi) a b
      = List.zipWith (· * ·) a b := by
    induction a generalizing b with
    | nil => simp
    | cons x xs ih =>
      cases b with
      | nil => simp
      | cons y ys =>
        have hx := ha x (by simp)
        have hy := hb y (by simp)
        simp only [List.zipWith_cons_cons]
        rw [lane_exact hx.1 hx.2 hy.1 hy.2,
          ih ys (fun z hz => ha z (List.mem_cons_of_mem x hz))
            (fun z hz => hb z (List.mem_cons_of_mem y hz))]
  rw [hzip]
  exact pairSumsSat_eq_pairSums _ (zipWith_mul_bound ha hb)

/-- C1: In the 8-bit Multiply kernel, the computed multiply-accumulate step
(absolute value of A lanes, sign mask, conditional negation of B lanes,
unsigned-by-signed paired multiply-add) yields the same per-pair 16-bit sums
as a direct signed-by-signed multiply, provided every A lane and every B
lane lies in [-127, 127]. -/
theorem c1_sign_trick_correct (a b : List ℤ)
    (ha : ∀ x ∈ a, -127 ≤ x ∧ x ≤ 127) (hb : ∀ x ∈ b, -127 ≤ x ∧ x ≤ 127) :
    mulStep a b = directMadd a b :=
  mulStep_exact a b ha hb

/-- Witness for C1 at a concrete chunk containing negative A lanes. -/
theorem c1_witness :
    (∀ x ∈ ([-3, 5, -127, 127] : List ℤ), -127 ≤ x ∧ x ≤ 127) ∧
    mulStep [-3, 5, -127, 127] [7, -2, 127, -127] = directMadd [-3, 5, -127, 127] [7, -2, 127, -127] :=
  ⟨by decide, c1_sign_trick_correct [-3, 5, -127, 127] [7, -2, 127, -127] (by decide) (by decide)⟩

/-! ### Theorems: C2 -/

theorem callbackPositions_eq (A : List ℤ) (B : List (List ℤ)) (R w C : ℕ) :
    callbackPositions A B R w C
      = (List.range (C / 8)).flatMap (fun s => (List.range R).map (fun r => (r, 8 * s))) := by
  unfold callbackPositions Multiply
  rw [List.map_flatMap]
  simp [List.map_map, Function.comp_def]

/-- C2: for the 8-bit Multiply with `A_rows = R` and `B_cols = C` under the
preconditions, the callback is invoked exactly `R * (C/8)` times, covering
every (row, 8-column-strip start) pair exactly once, with the outer loop
over column strips ascending (0, 8, 16, ...) and the inner loop over rows
ascending (0, ..., R-1). -/
theorem c2_callback_order (R w C : ℕ) (A : List ℤ) (B : List (List ℤ)) (h8 : 8 ∣ C) :
    callbackPositions A B R w C
        = (List.range (C / 8)).flatMap (fun s => (List.range R).map (fun r => (r, 8 * s)))
      ∧ (callbackPositions A B R w C).length = R * (C / 8)
      ∧ (callbackPositions A B R w C).Nodup
      ∧ ∀ r, r < R → ∀ c, c < C → 8 ∣ c → (r, c) ∈ callbackPositions A B R w C := by
  refine ⟨callbackPositions_eq A B R w C, ?_, ?_, ?_⟩
  · rw [callbackPositions_eq]
    rw [List.length_flatMap]
    simp only [Function.comp_def, List.length_map, List.length_range]
    rw [List.map_const', List.length_range, List.sum_replicate, smul_eq_mul, Nat.mul_comm]
  · rw [callbackPositions_eq]
    rw [List.nodup_flatMap]
    constructor
    · intro s _
      exact (List.nodup_range _).map (fun r r' (h : (r, 8 * s) = (r', 8 * s)) =>
        congrArg Prod.fst h)
    · have hpair := List.pairwise_lt_range (C / 8)
      refine hpair.imp ?_
      intro s s' hlt p hp hp'
      simp only [List.mem_map, List.mem_range] at hp hp'
      obtain ⟨r, _, rfl⟩ := hp
      obtain ⟨r', _, hps⟩ := hp'
      have : 8 * s' = 8 * s := congrArg Prod.snd hps
      omega
  · intro r hr c hc hdvd
    rw [callbackPositions_eq]
    rw [List.mem_flatMap]
    refine ⟨c / 8, ?_, ?_⟩
    · rw [List.mem_range]; omega
    · rw [List.mem_map]
      exact ⟨r, List.mem_range.mpr hr, by rw [Nat.mul_div_cancel_left']; exact hdvd⟩

/-- Witness for C2 at `R = 2`, `C = 16`. -/
theorem c2_witness :
    (8 : ℕ) ∣ 16 ∧ callbackPositions [] [] 2 64 16 = [(0, 0), (1, 0), (0, 8), (1, 8)] := by
  have h := c2_callback_order 2 64 16 [] [] (by decide)
  exact ⟨by decide, by rw [h.1]; decide⟩

/-! ### Theorems: C5 -/

theorem getD_mem_or_default {α : Type} : ∀ (l : List α) (n : ℕ) (d : α),
    l.getD n d ∈ l ∨ l.getD n d = d
  | [], _, _ => Or.inr rfl
  | x :: xs, 0, d => Or.inl (by simp)
  | x :: xs, n + 1, d => by
    rcases getD_mem_or_default xs n d with h | h
    · exact Or.inl (List.mem_cons_of_mem x (by rwa [List.getD_cons_succ]))
    · exact Or.inr (by rwa [List.getD_cons_succ])

theorem slice_subset (l : List ℤ) (s n : ℕ) : ∀ x ∈ slice l s n, x ∈ l := by
  intro x hx
  exact List.drop_subset s l (List.take_subset n (l.drop s) hx)

theorem mulStep_zero {a b : List ℤ}
    (h : (∀ x ∈ a, x = 0) ∨ (∀ x ∈ b, x = 0)) :
    ∀ v ∈ mulStep a b, v = 0 := by
  intro v hv
  rw [mulStep_zip] at hv
  obtain ⟨p, hp, q, hq, rfl⟩ := mem_pairSumsSat hv
  obtain ⟨x, hx, y, hy, rfl⟩ := mem_zipWith hp
  obtain ⟨x', hx', y', hy', rfl⟩ := mem_zipWith hq
  have hlane : ∀ (u w : ℤ), (u = 0 ∨ w = 0) → absU8 u * maskSub8 (testSign8 u) w = 0 := by
    intro u w huw
    rcases huw with rfl | rfl
    · have : absU8 0 = 0 := by norm_num [absU8, wrap8]
      rw [this, zero_mul]
    · have h0 : wrap8 0 = 0 := by norm_num [wrap8]
      have : maskSub8 (testSign8 u) 0 = 0 := by simp [maskSub8, h0]
      rw [this, mul_zero]
  have hz : ∀ (u w : ℤ), u ∈ a → w ∈ b → absU8 u * maskSub8 (testSign8 u) w = 0 := by
    intro u w hu hw
    rcases h with hA | hB
    · exact hlane u w (Or.inl (hA u hu))
    · exact hlane u w (Or.inr (hB w hw))
  rw [hz x y hx hy, hz x' y' hx' hy']
  norm_num [sat16]

theorem foldl_satAdd_zero (f : ℕ → List ℤ) (hf : ∀ k, ∀ v ∈ f k, v = 0) :
    ∀ (ks : List ℕ) (init : List ℤ), (∀ v ∈ init, v = 0) →
      ∀ v ∈ ks.foldl (fun acc k => List.zipWith satAdd16 acc (f k)) init, v = 0
  | [], _, hinit => hinit
  | k :: ks, init, hinit => by
    apply foldl_satAdd_zero f hf ks
    intro v hv
    obtain ⟨x, hx, y, hy, rfl⟩ := mem_zipWith hv
    rw [hinit x hx, hf k y hy]
    norm_num [satAdd16, sat16]

theorem stripSumJ_zero (A : List ℤ) (B : List (List ℤ)) (width r s j : ℕ)
    (h : (∀ x ∈ A, x = 0) ∨ (∀ g ∈ B, ∀ x ∈ g, x = 0)) :
    ∀ v ∈ stripSumJ A B width r s j, v = 0 := by
  have hstep : ∀ k, ∀ v ∈ mulStep (aChunk A width r k) (bReg B (width / 64) s k j), v = 0 := by
    intro k
    apply mulStep_zero
    rcases h with hA | hB
    · exact Or.inl (fun x hx => hA x (slice_subset _ _ _ x hx))
    · refine Or.inr ?_
      intro x hx
      unfold bReg at hx
      rcases getD_mem_or_default B (8 * (width / 64) * s + 8 * k + j) zeroReg with hm | he
      · exact hB _ hm x hx
      · rw [he] at hx
        exact List.eq_of_mem_replicate hx
  unfold stripSumJ
  split
  · intro v hv
    exact List.eq_of_mem_replicate hv
  · exact foldl_satAdd_zero _ hstep _ _ (hstep _)

theorem madd16Ones_zero : ∀ (l : List ℤ), (∀ x ∈ l, x = 0) → ∀ v ∈ madd16Ones l, v = 0
  | [], _ => by simp [madd16Ones]
  | [x], _ => by simp [madd16Ones]
  | x :: y :: rest, h => by
    intro v hv
    simp only [madd16Ones, List.mem_cons] at hv
    rcases hv with rfl | hv
    · rw [h x (by simp), h y (by simp)]
      norm_num [wrap32]
    · exact madd16Ones_zero rest (fun z hz => h z (by simp [hz])) v hv

/-- C5: for every invocation of the 8-bit Multiply, if every element of the
quantized A buffer is zero, or every element of the packed B buffer is zero,
then every accumulator vector handed to the callback is all zeros. -/
theorem c5_zero_operand (A : List ℤ) (B : List (List ℤ)) (Arows width Bcols : ℕ)
    (h : (∀ x ∈ A, x = 0) ∨ (∀ g ∈ B, ∀ x ∈ g, x = 0)) :
    ∀ t ∈ Multiply A B Arows width Bcols, ∀ v ∈ t.2.2, v = 0 := by
  intro t ht v hv
  unfold Multiply at ht
  rw [List.mem_flatMap] at ht
  obtain ⟨s, _, ht⟩ := ht
  rw [List.mem_map] at ht
  obtain ⟨r, _, rfl⟩ := ht
  have hv' : v ∈ stripTotals A B width r s := hv
  unfold stripTotals at hv'
  rw [List.mem_map] at hv'
  obtain ⟨j, _, rfl⟩ := hv'
  unfold horizontalSum32
  rw [List.sum_eq_zero (madd16Ones_zero _ (stripSumJ_zero A B width r s j h))]
  norm_num [wrap32]

/-- Witness for C5: a 2-row zero A against an arbitrary-valued B. -/
theorem c5_witness :
    ((∀ x ∈ List.replicate 128 (0 : ℤ), x = 0) ∨
      (∀ g ∈ [List.replicate 64 (7 : ℤ)], ∀ x ∈ g, x = 0)) ∧
    (∀ t ∈ Multiply (List.replicate 128 0) [List.replicate 64 7] 2 64 8,
      ∀ v ∈ t.2.2, v = 0) :=
  ⟨Or.inl (fun x hx => List.eq_of_mem_replicate hx),
    c5_zero_operand (List.replicate 128 0) [List.replicate 64 7] 2 64 8
      (Or.inl (fun x hx => List.eq_of_mem_replicate hx))⟩

/-! ### Theorems: C3 -/

/-- C3: every element written by the 8-bit Quantize is in [-127, +127]:
scaled magnitudes beyond the representable range saturate to plus or minus
127 rather than wrapping, and the output never contains -128. -/
theorem c3_quantize_range (input : List ℚ) (m : ℚ) :
    ∀ v ∈ Quantize8 input m, -127 ≤ v ∧ v ≤ 127 := by
  intro v hv
  unfold Quantize8 at hv
  rw [List.mem_map] at hv
  obtain ⟨x, _, rfl⟩ := hv
  unfold quantize8Elem sat8
  constructor
  · have h1 : (-127 : ℤ) ≤ max (quantizerGrab x m) (-127) := le_max_right _ _
    rcases le_total (min 127 (max (quantizerGrab x m) (-127))) (-128) with h | h <;> omega
  · have h2 : min 127 (max (quantizerGrab x m) (-127)) ≤ 127 := min_le_left _ _
    omega

/-- Witness for C3: quantizing 300 with multiplier 1 saturates to 127. -/
theorem c3_witness : -127 ≤ quantize8Elem 300 1 ∧ quantize8Elem 300 1 ≤ 127 :=
  c3_quantize_range [300] 1 (quantize8Elem 300 1) (by simp [Quantize8])

/-! ### Theorems: C4 -/

/-- C4: for every rational x and positive multiplier with
|x * multiplier| at most 126.5, dequantizing the 8-bit quantized value
(dividing by the multiplier) lands within 0.5/multiplier of x. -/
theorem c4_roundtrip_bound (x m : ℚ) (hm : 0 < m) (hx : |x * m| ≤ 126.5) :
    |dequantize8 (quantize8Elem x m) m - x| ≤ (1 / 2) / m := by
  have hround : |(round (x * m) : ℚ) - x * m| ≤ 1 / 2 := by
    rw [abs_sub_comm]; exact abs_sub_round (x * m)
  have hxm := abs_le.mp hx
  have habs := abs_le.mp hround
  have h127 : (round (x * m) : ℚ) ≤ 127 := by
    have : (126.5 : ℚ) + 1 / 2 = 127 := by norm_num
    linarith
  have h127' : (-127 : ℚ) ≤ (round (x * m) : ℚ) := by
    have : (-126.5 : ℚ) - 1 / 2 = -127 := by norm_num
    linarith
  have hz1 : round (x * m) ≤ 127 := by exact_mod_cast h127
  have hz2 : -127 ≤ round (x * m) := by exact_mod_cast h127'
  have hq : quantize8Elem x m = round (x * m) := by
    unfold quantize8Elem quantizerGrab cvtI32
    rw [if_pos (by constructor <;> omega)]
    rw [max_eq_left hz2]
    exact sat8_eq_self (by omega) hz1
  rw [hq]
  unfold dequantize8
  have hrew : (round (x * m) : ℚ) / m - x = ((round (x * m) : ℚ) - x * m) / m := by
    field_simp
    ring
  rw [hrew, abs_div, abs_of_pos hm]
  exact div_le_div_of_nonneg_right hround hm.le

/-- Witness for C4 at x = 3, multiplier = 2. -/
theorem c4_witness :
    (0 : ℚ) < 2 ∧ |(3 : ℚ) * 2| ≤ 126.5 ∧
    |dequantize8 (quantize8Elem 3 2) 2 - 3| ≤ (1 / 2) / 2 :=
  ⟨by norm_num, by norm_num, c4_roundtrip_bound 3 2 (by norm_num) (by norm_num)⟩

/-! ### Theorems: C7 -/

theorem multiplyPre_iff (Aaddr Baddr width Bcols : ℕ) :
    multiplyPre Aaddr Baddr width Bcols = true
      ↔ (width % 64 = 0 ∧ Bcols % 8 = 0 ∧ Aaddr % 64 = 0 ∧ Baddr % 64 = 0) := by
  unfold multiplyPre
  simp [Bool.and_eq_true, beq_iff_eq, and_assoc]

/-- C7: the 8-bit Multiply fails its assertion check exactly when B_cols is
not a multiple of 8, or width is not a multiple of the register's 64-lane
8-bit capacity, or either operand buffer is not 64-byte aligned; when the
preconditions hold no assertion fires and the multiply runs to completion,
producing its full output. -/
theorem c7_multiply_preconditions (Aaddr Baddr : ℕ) (A : List ℤ) (B : List (List ℤ))
    (Arows width Bcols : ℕ) :
    (MultiplyChecked Aaddr Baddr A B Arows width Bcols = none
        ↔ ¬(width % 64 = 0 ∧ Bcols % 8 = 0 ∧ Aaddr % 64 = 0 ∧ Baddr % 64 = 0))
      ∧ (MultiplyChecked Aaddr Baddr A B Arows width Bcols
            = some (Multiply A B Arows width Bcols)
        ↔ (width % 64 = 0 ∧ Bcols % 8 = 0 ∧ Aaddr % 64 = 0 ∧ Baddr % 64 = 0)) := by
  by_cases hp : multiplyPre Aaddr Baddr width Bcols = true
  · have hiff := (multiplyPre_iff Aaddr Baddr width Bcols).mp hp
    unfold MultiplyChecked
    rw [if_pos hp]
    simp [hiff]
  · have hiff : ¬(width % 64 = 0 ∧ Bcols % 8 = 0 ∧ Aaddr % 64 = 0 ∧ Baddr % 64 = 0) :=
      fun h => hp ((multiplyPre_iff Aaddr Baddr width Bcols).mpr h)
    unfold MultiplyChecked
    rw [if_neg hp]
    simp [hiff]

/-! ### Theorems: C8 (corrected) -/

/-- Counterexample to C8 as stated: `size = 48` passes both Quantize
assertions (the source checks `size % 16 == 0` in both variants), although
48 is a multiple of neither 32 nor 64, the lane counts the claim names. -/
theorem c8_counterexample :
    quantize16Pre 0 48 = true ∧ 48 % 32 ≠ 0 ∧ quantize8Pre 0 48 = true ∧ 48 % 64 ≠ 0 := by
  decide

/-- C8 (amended): both Quantize variants require (and their assertions
check) that `size` is a multiple of 16 — the number of floats converted per
512-bit iteration, not the output lane count — and that the float input is
aligned to the 64-byte vector register width. -/
theorem c8_quantize_pre_amended (addr size : ℕ) :
    (quantize16Pre addr size = true ↔ (size % 16 = 0 ∧ addr % 64 = 0))
      ∧ (quantize8Pre addr size = true ↔ (size % 16 = 0 ∧ addr % 64 = 0)) := by
  unfold quantize16Pre quantize8Pre
  constructor <;> simp [Bool.and_eq_true, beq_iff_eq]

/-! ### Theorems: C9 -/

/-- C9: every element of an 8-bit packed-B tile produced by
`QuantizeTile8::ForReshape` lies in [-127, 127] (the per-tile quantization
clamps away -128 exactly as the standalone Quantize does), so the Multiply
kernel's masked negation of B lanes (subtract from zero) can never overflow
an 8-bit lane: it computes the exact negation. -/
theorem c9_packedB_range (g : List ℤ) :
    ∀ b ∈ forReshape g, (-127 ≤ b ∧ b ≤ 127) ∧ maskSub8 true b = -b := by
  intro b hb
  unfold forReshape at hb
  rw [List.mem_map] at hb
  obtain ⟨i, _, rfl⟩ := hb
  have hrange : -127 ≤ forReshapeElem (g.getD i 0) ∧ forReshapeElem (g.getD i 0) ≤ 127 := by
    unfold forReshapeElem sat8 sat16
    constructor
    · exact le_max_right _ _
    · have h1 : min 127 (max (-32768) (min 32767 (g.getD i 0))) ≤ 127 := min_le_left _ _
      rcases le_total (min 127 (max (-32768) (min 32767 (g.getD i 0)))) (-128) with h | h <;>
        omega
  refine ⟨hrange, ?_⟩
  have hw : wrap8 (-(forReshapeElem (g.getD i 0))) = -(forReshapeElem (g.getD i 0)) :=
    wrap8_eq_self (by omega) (by omega)
  show wrap8 (0 - forReshapeElem (g.getD i 0)) = -(forReshapeElem (g.getD i 0))
  rw [zero_sub]
  exact hw

/-- Witness for C9: the clamped quantization of the int32 value 200 is an
element of a concrete ForReshape output, lies in [-127, 127], and negates
exactly. -/
theorem c9_witness :
    ((-127 : ℤ) ≤ forReshapeElem 200 ∧ forReshapeElem 200 ≤ 127)
      ∧ maskSub8 true (forReshapeElem 200) = -(forReshapeElem 200) :=
  c9_packedB_range [200] (forReshapeElem 200) (by decide)

/-! ### Theorems: C10 -/

theorem getD_drop (d : ℤ) : ∀ (l : List ℤ) (s i : ℕ),
    (l.drop s).getD i d = l.getD (s + i) d
  | _, 0, _ => by simp
  | [], _ + 1, _ => by simp
  | x :: xs, s + 1, i => by
    have h : s + 1 + i = (s + i) + 1 := by omega
    rw [List.drop_succ_cons, getD_drop d xs s i, h, List.getD_cons_succ]

theorem getD_take (d : ℤ) : ∀ (n : ℕ) (l : List ℤ) (i : ℕ), i < n →
    (l.take n).getD i d = l.getD i d
  | 0, _, _, h => absurd h (Nat.not_lt_zero _)
  | _ + 1, [], _, _ => by simp
  | n + 1, x :: xs, 0, _ => by simp
  | n + 1, x :: xs, i + 1, h => by
    rw [List.take_succ_cons, List.getD_cons_succ, List.getD_cons_succ,
      getD_take d n xs i (by omega)]

theorem slice_getD (l : List ℤ) (s n i : ℕ) (d : ℤ) (h : i < n) :
    (slice l s n).getD i d = l.getD (s + i) d := by
  unfold slice
  rw [getD_take d n _ i h, getD_drop]

theorem zipWith_eq_map_range {f : ℤ → ℤ → ℤ} : ∀ (n : ℕ) (a b : List ℤ),
    a.length = n → b.length = n →
    List.zipWith f a b = (List.range n).map (fun i => f (a.getD i 0) (b.getD i 0))
  | 0, [], [], _, _ => by simp
  | n + 1, x :: xs, y :: ys, hx, hy => by
    rw [List.zipWith_cons_cons, List.range_succ_eq_map, List.map_cons,
      zipWith_eq_map_range n xs ys (by simpa using hx) (by simpa using hy), List.map_map]
    simp [Function.comp_def]

theorem pairSums_sum : ∀ (l : List ℤ), l.length % 2 = 0 → (pairSums l).sum = l.sum
  | [], _ => rfl
  | [x], h => by simp at h
  | x :: y :: rest, h => by
    have hr : rest.length % 2 = 0 := by simp at h; omega
    simp only [pairSums, List.sum_cons, pairSums_sum rest hr]
    ring

theorem pairSums_length : ∀ (l : List ℤ), (pairSums l).length = l.length / 2
  | [] => rfl
  | [x] => by
    show ([] : List ℤ).length = [x].length / 2
    simp
  | x :: y :: rest => by
    simp only [pairSums, List.length_cons, pairSums_length rest]
    omega

theorem pairSums_bound (M : ℤ) : ∀ (l : List ℤ), (∀ x ∈ l, -M ≤ x ∧ x ≤ M) →
    ∀ v ∈ pairSums l, -(2 * M) ≤ v ∧ v ≤ 2 * M
  | [], _ => by simp [pairSums]
  | [x], _ => by simp [pairSums]
  | x :: y :: rest, h => by
    intro v hv
    simp only [pairSums, List.mem_cons] at hv
    rcases hv with rfl | hv
    · have hx := h x (by simp)
      have hy := h y (by simp)
      omega
    · exact pairSums_bound M rest (fun z hz => h z (by simp [hz])) v hv

theorem sum_bound (M : ℤ) : ∀ (l : List ℤ), (∀ x ∈ l, -M ≤ x ∧ x ≤ M) →
    -((l.length : ℤ) * M) ≤ l.sum ∧ l.sum ≤ (l.length : ℤ) * M
  | [], _ => by simp
  | x :: xs, h => by
    have hx := h x (by simp)
    have ih := sum_bound M xs (fun z hz => h z (by simp [hz]))
    simp only [List.sum_cons, List.length_cons]
    push_cast
    constructor <;> nlinarith [ih.1, ih.2, hx.1, hx.2]

theorem madd16Ones_eq_pairSums : ∀ (l : List ℤ),
    (∀ x ∈ l, -32258 ≤ x ∧ x ≤ 32258) → madd16Ones l = pairSums l
  | [], _ => rfl
  | [x], _ => rfl
  | x :: y :: rest, h => by
    have hx := h x (by simp)
    have hy := h y (by simp)
    have hw : wrap32 (x * 1 + y * 1) = x + y := by
      have : x * 1 + y * 1 = x + y := by ring
      rw [this]
      exact wrap32_eq_self (by omega) (by omega)
    simp only [madd16Ones, pairSums, hw,
      madd16Ones_eq_pairSums rest (fun z hz => h z (by simp [hz]))]

/-- Bound on the multiply-accumulate step: pair sums have magnitude at most
2 * 127 * 127 = 32258 when the lanes are in [-127, 127]. -/
theorem mulStep_bound (a b : List ℤ)
    (ha : ∀ x ∈ a, -127 ≤ x ∧ x ≤ 127) (hb : ∀ x ∈ b, -127 ≤ x ∧ x ≤ 127) :
    ∀ v ∈ mulStep a b, -32258 ≤ v ∧ v ≤ 32258 := by
  intro v hv
  rw [mulStep_exact a b ha hb] at hv
  have := pairSums_bound 16129 _ (zipWith_mul_bound ha hb) v hv
  omega

/-- With `width = 64` the shared-dimension loop runs exactly once. -/
theorem stripSumJ_width64 (A : List ℤ) (B : List (List ℤ)) (r s j : ℕ) :
    stripSumJ A B 64 r s j = mulStep (aChunk A 64 r 0) (bReg B 1 s 0 j) := rfl

theorem stripTotals_width64 (A : List ℤ) (B : List (List ℤ)) (rows r s : ℕ)
    (hA : ∀ x ∈ A, -127 ≤ x ∧ x ≤ 127)
    (hB : ∀ g ∈ B, ∀ x ∈ g, -127 ≤ x ∧ x ≤ 127)
    (hAlen : A.length = rows * 64)
    (hBlen : ∀ g ∈ B, g.length = 64)
    (hr : r < rows) :
    stripTotals A B 64 r s
      = (List.range 8).map (fun j =>
          ((List.range 64).map (fun i =>
            A.getD (r * 64 + i) 0 * (B.getD (8 * s + j) zeroReg).getD i 0)).sum) := by
  unfold stripTotals
  apply List.map_congr_left
  intro j _
  rw [stripSumJ_width64]
  have hbreg : bReg B 1 s 0 j = B.getD (8 * s + j) zeroReg := by
    simp [bReg]
  rw [hbreg]
  have ha_mem : ∀ x ∈ aChunk A 64 r 0, -127 ≤ x ∧ x ≤ 127 :=
    fun x hx => hA x (slice_subset A (r * 64 + 64 * 0) 64 x hx)
  have hb_mem : ∀ x ∈ B.getD (8 * s + j) zeroReg, -127 ≤ x ∧ x ≤ 127 := by
    intro x hx
    rcases getD_mem_or_default B (8 * s + j) zeroReg with hm | he
    · exact hB _ hm x hx
    · rw [he] at hx
      rw [List.eq_of_mem_replicate hx]
      omega
  have ha_len : (aChunk A 64 r 0).length = 64 := by
    unfold aChunk slice
    rw [List.length_take, List.length_drop, hAlen]
    omega
  have hb_len : (B.getD (8 * s + j) zeroReg).length = 64 := by
    rcases getD_mem_or_default B (8 * s + j) zeroReg with hm | he
    · exact hBlen _ hm
    · rw [he]
      simp [zeroReg]
  have hprod : ∀ v ∈ List.zipWith (· * ·) (aChunk A 64 r 0) (B.getD (8 * s + j) zeroReg),
      -16129 ≤ v ∧ v ≤ 16129 := zipWith_mul_bound ha_mem hb_mem
  have hprod_len : (List.zipWith (· * ·) (aChunk A 64 r 0) (B.getD (8 * s + j) zeroReg)).length
      = 64 := by
    rw [List.length_zipWith, ha_len, hb_len]
    omega
  have hps_bound : ∀ v ∈ pairSums (List.zipWith (· * ·) (aChunk A 64 r 0)
      (B.getD (8 * s + j) zeroReg)), -32258 ≤ v ∧ v ≤ 32258 := by
    intro v hv
    have := pairSums_bound 16129 _ hprod v hv
    omega
  rw [mulStep_exact _ _ ha_mem hb_mem, madd16Ones_eq_pairSums _ hps_bound]
  unfold horizontalSum32
  rw [pairSums_sum, pairSums_sum]
  · have hsum := sum_bound 16129 _ hprod
    rw [hprod_len] at hsum
    rw [wrap32_eq_self (by omega) (by omega)]
    rw [zipWith_eq_map_range 64 _ _ ha_len hb_len]
    congr 1
    apply List.map_congr_left
    intro i hi
    rw [List.mem_range] at hi
    have hsl := slice_getD A (r * 64 + 64 * 0) 64 i 0 hi
    have hidx : r * 64 + 64 * 0 + i = r * 64 + i := by omega
    rw [hidx] at hsl
    rw [show (aChunk A 64 r 0).getD i 0 = (slice A (r * 64 + 64 * 0) 64).getD i 0 from rfl, hsl]
  · rw [hprod_len]
  · rw [pairSums_length, hprod_len]

/-- C10: in the 8-bit Multiply, a paired unsigned-by-signed multiply-add
over lanes in [-127, 127] produces pair sums of magnitude at most
2 * 127 * 127 = 32258, which fits in a signed 16-bit lane without
saturating; consequently, when width is exactly one register (64 elements)
there is no cross-chunk saturating addition at all and the 32-bit totals
handed to the callback are the exact integer dot products. -/
theorem c10_no_saturation_exact (A : List ℤ) (B : List (List ℤ)) (rows cols : ℕ)
    (hA : ∀ x ∈ A, -127 ≤ x ∧ x ≤ 127)
    (hB : ∀ g ∈ B, ∀ x ∈ g, -127 ≤ x ∧ x ≤ 127)
    (hAlen : A.length = rows * 64)
    (hBlen : ∀ g ∈ B, g.length = 64) :
    (∀ a b : List ℤ, (∀ x ∈ a, -127 ≤ x ∧ x ≤ 127) → (∀ x ∈ b, -127 ≤ x ∧ x ≤ 127) →
        ∀ v ∈ mulStep a b, -32258 ≤ v ∧ v ≤ 32258)
      ∧ Multiply A B rows 64 cols
          = (List.range (cols / 8)).flatMap (fun s =>
              (List.range rows).map (fun r => (r, 8 * s,
                (List.range 8).map (fun j =>
                  ((List.range 64).map (fun i =>
                    A.getD (r * 64 + i) 0
                      * (B.getD (8 * s + j) zeroReg).getD i 0)).sum)))) := by
  constructor
  · exact fun a b ha hb => mulStep_bound a b ha hb
  · unfold Multiply
    have houter : ∀ s : ℕ,
        (List.range rows).map (fun r => (r, 8 * s, stripTotals A B 64 r s))
          = (List.range rows).map (fun r => (r, 8 * s,
              (List.range 8).map (fun j =>
                ((List.range 64).map (fun i =>
                  A.getD (r * 64 + i) 0
                    * (B.getD (8 * s + j) zeroReg).getD i 0)).sum))) := by
      intro s
      apply List.map_congr_left
      intro r hr
      rw [List.mem_range] at hr
      rw [stripTotals_width64 A B rows r s hA hB hAlen hBlen hr]
    simp only [houter]

/-- Witness for C10: one row of 64 ones against one strip of B whose first
column register is all ones, the rest zero. -/
theorem c10_witness :
    Multiply (List.replicate 64 1) (List.replicate 64 1 :: List.replicate 7 zeroReg) 1 64 8
      = (List.range (8 / 8)).flatMap (fun s =>
          (List.range 1).map (fun r => (r, 8 * s,
            (List.range 8).map (fun j =>
              ((List.range 64).map (fun i =>
                (List.replicate 64 (1 : ℤ)).getD (r * 64 + i) 0
                  * (((List.replicate 64 1 :: List.replicate 7 zeroReg) : List (List ℤ)).getD
                      (8 * s + j) zeroReg).getD i 0)).sum)))) :=
  (c10_no_saturation_exact (List.replicate 64 1) (List.replicate 64 1 :: List.replicate 7 zeroReg)
    1 8
    (fun x hx => by rw [List.eq_of_mem_replicate hx]; omega)
    (by
      intro g hg x hx
      rcases List.mem_cons.mp hg with rfl | hg
      · rw [List.eq_of_mem_replicate hx]; omega
      · rw [List.eq_of_mem_replicate hg] at hx
        unfold zeroReg at hx
        rw [List.eq_of_mem_replicate hx]
        omega)
    (by simp)
    (by
      intro g hg
      rcases List.mem_cons.mp hg with rfl | hg
      · simp
      · rw [List.eq_of_mem_replicate hg]
        simp [zeroReg])).2

/-! ### Theorems: C6 -/

theorem flatMap_congr_mem {α β : Type} {f g : α → List β} :
    ∀ {l : List α}, (∀ x ∈ l, f x = g x) → l.flatMap f = l.flatMap g
  | [], _ => rfl
  | x :: xs, h => by
    rw [List.flatMap_cons, List.flatMap_cons, h x (by simp),
      flatMap_congr_mem (fun z hz => h z (by simp [hz]))]

theorem flatMap_map_fn {α β γ : Type} (f : α → β) (g : β → List γ) :
    ∀ l : List α, (l.map f).flatMap g = l.flatMap (fun x => g (f x))
  | [] => rfl
  | x :: xs => by
    rw [List.map_cons, List.flatMap_cons, List.flatMap_cons, flatMap_map_fn f g xs]

theorem flatMap_range_mul {α : Type} (f : ℕ → α) : ∀ (a b : ℕ),
    (List.range a).flatMap (fun i => (List.range b).map (fun j => f (i * b + j)))
      = (List.range (a * b)).map f := by
  intro a b
  induction a with
  | zero => simp
  | succ a ih =>
    rw [List.range_succ, List.flatMap_append, ih, Nat.succ_mul, List.range_add,
      List.map_append]
    congr 1
    simp [List.map_map, Function.comp_def]

theorem flatMap_range_triple {α : Type} (f : ℕ → α) (S rr : ℕ) :
    (List.range S).flatMap (fun s => (List.range rr).flatMap (fun r =>
        (List.range 8).map (fun k => f (s * (rr * 8) + r * 8 + k))))
      = (List.range (S * (rr * 8))).map f := by
  have h1 : ∀ s : ℕ, (List.range rr).flatMap (fun r =>
      (List.range 8).map (fun k => f (s * (rr * 8) + r * 8 + k)))
      = (List.range (rr * 8)).map (fun t => f (s * (rr * 8) + t)) := by
    intro s
    rw [← flatMap_range_mul (fun t => f (s * (rr * 8) + t)) rr 8]
    refine flatMap_congr_mem (fun r _ => ?_)
    apply List.map_congr_left
    intro k _
    rw [Nat.add_assoc]
  exact (flatMap_congr_mem (fun s _ => h1 s)).trans (flatMap_range_mul f S (rr * 8))

theorem getD_map_range {α : Type} (f : ℕ → α) (d : α) (N n : ℕ) (h : n < N) :
    ((List.range N).map f).getD n d = f n := by
  rw [List.getD_eq_getElem?_getD, List.getElem?_map, List.getElem?_range h]
  rfl

theorem chunk8_cons8 (a b c d e f g h : ℕ) (l : List ℕ) :
    chunk8 (a :: b :: c :: d :: e :: f :: g :: h :: l)
      = [a, b, c, d, e, f, g, h] :: chunk8 l := rfl

theorem chunk8_map (f : ℕ → ℕ) : ∀ l : List ℕ,
    chunk8 (l.map f) = (chunk8 l).map (List.map f)
  | [] => rfl
  | [_] => rfl
  | [_, _] => rfl
  | [_, _, _] => rfl
  | [_, _, _, _] => rfl
  | [_, _, _, _, _] => rfl
  | [_, _, _, _, _, _] => rfl
  | [_, _, _, _, _, _, _] => rfl
  | a :: b :: c :: d :: e :: g :: h :: i :: rest => by
    show [f a, f b, f c, f d, f e, f g, f h, f i] :: chunk8 (rest.map f)
        = [f a, f b, f c, f d, f e, f g, f h, f i] :: (chunk8 rest).map (List.map f)
    rw [chunk8_map f rest]

theorem cons_map_succ {α : Type} (f : ℕ → α) (n : ℕ) :
    f 0 :: (List.range n).map (fun s => f (s + 1)) = (List.range (n + 1)).map f := by
  rw [List.range_succ_eq_map n, List.map_cons, List.map_map]
  rfl

theorem chunk8_range : ∀ S : ℕ, chunk8 (List.range (8 * S))
    = (List.range S).map (fun s => (List.range 8).map (fun k => 8 * s + k))
  | 0 => rfl
  | S + 1 => by
    have hsplit : List.range (8 * (S + 1))
        = List.range 8 ++ (List.range (8 * S)).map (fun x => 8 + x) := by
      rw [show 8 * (S + 1) = 8 + 8 * S from by ring, List.range_add]
    rw [hsplit]
    have hcons : chunk8 (List.range 8 ++ (List.range (8 * S)).map (fun x => 8 + x))
        = [0, 1, 2, 3, 4, 5, 6, 7]
            :: chunk8 ((List.range (8 * S)).map (fun x => 8 + x)) := rfl
    rw [hcons, chunk8_map, chunk8_range S]
    rw [← cons_map_succ (fun s => (List.range 8).map (fun k => 8 * s + k)) S]
    refine congr (congrArg List.cons (by decide)) ?_
    rw [List.map_map]
    apply List.map_congr_left
    intro s _
    simp only [Function.comp_def, List.map_map]
    apply List.map_congr_left
    intro k _
    omega

/-- C6: for every valid rows-by-cols float matrix B (rows a multiple of
kBTileRow = 64, cols a multiple of 8), calling SelectColumnsB on the output
of PrepareB with the full list of column indices 0, 1, ..., cols-1 in order
produces a buffer equal element-for-element to the output of PrepareB. -/
theorem c6_select_all_identity (Bf : ℕ → ℕ → ℚ) (m : ℚ) (rows cols : ℕ)
    (hrows : 64 ∣ rows) (hcols : 8 ∣ cols) :
    selectColumnsB (prepareB Bf m rows cols) rows (List.range cols)
      = prepareB Bf m rows cols := by
  have hc : 8 * (cols / 8) = cols := Nat.mul_div_cancel' hcols
  unfold selectColumnsB
  rw [show List.range cols = List.range (8 * (cols / 8)) from by rw [hc]]
  rw [chunk8_range (cols / 8), flatMap_map_fn]
  have hinner : ∀ s, s < cols / 8 →
      (List.range (rows / 64)).flatMap (fun r =>
        ((List.range 8).map (fun k => 8 * s + k)).map (fun c =>
          (prepareB Bf m rows cols).getD
            ((c / 8) * ((rows / 64) * 8) + r * 8 + c % 8) []))
        = (List.range (rows / 64)).flatMap (fun r =>
            (List.range 8).map (fun k =>
              packedRegister Bf m rows (s * ((rows / 64) * 8) + r * 8 + k))) := by
    intro s hs
    refine flatMap_congr_mem (fun r hr => ?_)
    rw [List.mem_range] at hr
    rw [List.map_map]
    apply List.map_congr_left
    intro k hk
    rw [List.mem_range] at hk
    simp only [Function.comp_def]
    have e1 : (8 * s + k) / 8 = s := by omega
    have e2 : (8 * s + k) % 8 = k := by omega
    rw [e1, e2]
    unfold prepareB
    have h1 : r * 8 + k < (rows / 64) * 8 := by omega
    have h2 : s * ((rows / 64) * 8) + (r * 8 + k) < (s + 1) * ((rows / 64) * 8) := by
      rw [Nat.succ_mul]
      exact Nat.add_lt_add_left h1 _
    have h3 : (s + 1) * ((rows / 64) * 8) ≤ (cols / 8) * ((rows / 64) * 8) :=
      Nat.mul_le_mul_right _ (by omega)
    have hb : s * ((rows / 64) * 8) + r * 8 + k < (cols / 8) * ((rows / 64) * 8) := by
      rw [Nat.add_assoc]
      exact lt_of_lt_of_le h2 h3
    rw [getD_map_range _ _ _ _ hb]
  rw [flatMap_congr_mem (fun s hs => hinner s (List.mem_range.mp hs))]
  rw [flatMap_range_triple (packedRegister Bf m rows) (cols / 8) (rows / 64)]
  rfl

/-- Witness for C6 on a concrete 64-by-8 matrix. -/
theorem c6_witness :
    (64 : ℕ) ∣ 64 ∧ (8 : ℕ) ∣ 8 ∧
    selectColumnsB (prepareB (fun i j => (i : ℚ) - j) 1 64 8) 64 (List.range 8)
      = prepareB (fun i j => (i : ℚ) - j) 1 64 8 :=
  ⟨by decide, by decide,
    c6_select_all_identity (fun i j => (i : ℚ) - j) 1 64 8 (by decide) (by decide)⟩

end Intgemm
